import Mathlib

/-!
Verification development for the newsletter-archive repository.

The Python sources are shallowly embedded: pure functions become Lean
functions, the SQLite store becomes an explicit list of rows, network
calls (`requests.get`, `substack_api.Post.get_content`) become oracle
parameters, and HTML parsing (BeautifulSoup, an external library) is
modelled by working on the parsed node tree directly.
-/

namespace NewsletterArchive

/-! ## Python string primitives

Embeddings of the Python `str` operations the sources use:
`str.strip()`, `str.rstrip("/")`, `str.startswith`, `in`, `str.split()`.
All work on `List Char`. -/

/-- Python `str.isspace` charset restricted to ASCII, as used by
`str.strip()` / `str.split()` with no argument. -/
def pyIsSpace (c : Char) : Bool :=
  c = ' ' || c = '\t' || c = '\n' || c = '\r' || c = '\x0b' || c = '\x0c'

/-- Drop a trailing run of characters satisfying `p` (Python `rstrip`). -/
def dropTrailing (p : Char → Bool) : List Char → List Char
  | [] => []
  | c :: rest =>
    let r := dropTrailing p rest
    if r = [] && p c then [] else c :: r

/-- Python `str.strip()` on a character list. -/
def pyStrip (l : List Char) : List Char :=
  dropTrailing pyIsSpace (l.dropWhile pyIsSpace)

/-- Python `str.strip()` on a `String`. -/
def pyStripStr (s : String) : String := ⟨pyStrip s.data⟩

/-- Python `str.rstrip("/")` on a `String`. -/
def pyRstripSlash (s : String) : String := ⟨dropTrailing (· = '/') s.data⟩

/-- `l.startswith pat` on character lists. -/
def startsWithL : List Char → List Char → Bool
  | _, [] => true
  | [], _ :: _ => false
  | c :: l, d :: pat => c = d && startsWithL l pat

/-- Python `pat in l` substring test on character lists. -/
def containsL : List Char → List Char → Bool
  | [], pat => pat.isEmpty
  | l@(_ :: rest), pat => startsWithL l pat || containsL rest pat

/-- Number of whitespace-delimited tokens, `len(s.split())` in Python.
The flag records whether the previous character was inside a token. -/
def countWordsAux : List Char → Bool → Nat
  | [], _ => 0
  | c :: rest, inWord =>
    if pyIsSpace c then countWordsAux rest false
    else (if inWord then 0 else 1) + countWordsAux rest true

/-- `len(s.split())` for a Python string `s`. -/
def countWords (s : String) : Nat := countWordsAux s.data false

/-- Python truthiness of an optional string: `None` and `""` are falsy. -/
def pyTruthy : Option String → Bool
  | none => false
  | some s => !(s = "")

/-! ## `src/ingest/parser.py` — Text Normalizer

`html_to_text` parses the markup with BeautifulSoup (external library),
replaces `<br>` with a newline, wraps every block-level element in
`"\n\n"` markers, takes the document text, and then normalizes
whitespace with two regexes and `strip()`.  We embed the parsed node
tree as `Html` and the post-parse pipeline faithfully. -/

/-- A parsed markup node (BeautifulSoup's view of the document). -/
inductive Html where
  | text (s : String)
  | br
  | tag (name : String) (children : List Html)
deriving Repr

/-- Tags treated as block-level by `html_to_text`. -/
def isBlockTag (name : String) : Bool :=
  name = "p" || name = "div" || name = "h1" || name = "h2" || name = "h3" ||
  name = "h4" || name = "h5" || name = "h6" || name = "li" || name = "blockquote"

mutual

/-- Text of one node after the `<br>` replacement and the insertion of
`"\n\n"` around every block-level element (`soup.get_text()`). -/
def nodeText : Html → String
  | .text s => s
  | .br => "\n"
  | .tag name kids =>
    if isBlockTag name then "\n\n" ++ nodesText kids ++ "\n\n" else nodesText kids

/-- Concatenated text of a list of nodes. -/
def nodesText : List Html → String
  | [] => ""
  | n :: rest => nodeText n ++ nodesText rest

end

/-- Horizontal whitespace: the regex class `[^\S\n]`. -/
def isHSpace (c : Char) : Bool := pyIsSpace c && !(c = '\n')

/-- `re.sub(r"[^\S\n]+", " ", text)`: each maximal run of horizontal
whitespace becomes a single space.  The flag records whether we are
inside a run whose single space was already emitted. -/
def collapseHSAux : List Char → Bool → List Char
  | [], _ => []
  | c :: rest, inRun =>
    if isHSpace c then
      if inRun then collapseHSAux rest true else ' ' :: collapseHSAux rest true
    else c :: collapseHSAux rest false

def collapseHS (l : List Char) : List Char := collapseHSAux l false

/-- `min n 2` newlines, emitted at the end of a newline run. -/
def nlChunk (n : Nat) : List Char := List.replicate (min n 2) '\n'

/-- `re.sub(r"\n{3,}", "\n\n", text)`: each maximal run of `k`
newlines becomes `min k 2` newlines.  `n` counts the pending run. -/
def collapseNLAux : List Char → Nat → List Char
  | [], n => nlChunk n
  | c :: rest, n =>
    if c = '\n' then collapseNLAux rest (n + 1)
    else nlChunk n ++ c :: collapseNLAux rest 0

def collapseNL (l : List Char) : List Char := collapseNLAux l 0

/-- The whitespace-normalization tail of `html_to_text`: the two
regex substitutions followed by `str.strip()`. -/
def normalizeWS (s : String) : String :=
  ⟨pyStrip (collapseNL (collapseHS s.data))⟩

/-- `html_to_text` on an already-parsed document.  `none` models the
Python `None` / empty-string early return. -/
def html_to_text : Option (List Html) → String
  | none => ""
  | some nodes => normalizeWS (nodesText nodes)

/-! ## `src/ingest/fetcher.py` — base-URL resolution, pagination,
metadata extraction -/

/-- `resolve_base_url`: strip whitespace, strip trailing slashes, then
pass full URLs through, prefix `https://` onto domains (anything with a
dot), and expand a bare slug to `https://slug.substack.com`. -/
def resolve_base_url (newsletter : String) : String :=
  let n := pyRstripSlash (pyStripStr newsletter)
  if startsWithL n.data "http://".data || startsWithL n.data "https://".data then n
  else if containsL n.data ['.'] then "https://" ++ n
  else "https://" ++ n ++ ".substack.com"

/-- One `publishedBylines` entry of a raw archive listing dict. -/
structure Byline where
  name : Option String
deriving Repr, DecidableEq

/-- The `publication` sub-dict of a raw archive listing dict. -/
structure PublicationInfo where
  name : Option String
  hero_text : Option String
deriving Repr, DecidableEq

/-- One `postTags` entry of a raw archive listing dict. -/
structure TagEntry where
  name : Option String
deriving Repr, DecidableEq

/-- A raw listing entry as returned by the archive API.  Optional
fields model keys that may be absent or `null`; `reactions` and
`postTags` fold the Python `or {}` / `or []` defaults into the field. -/
structure RawPost where
  type : Option String := none
  title : Option String := none
  subtitle : Option String := none
  slug : Option String := none
  canonical_url : Option String := none
  post_date : Option String := none
  audience : Option String := none
  reaction_count : Option Int := none
  comment_count : Option Int := none
  reactions : List (String × Int) := []
  postTags : List TagEntry := []
  cover_image : Option String := none
  wordcount : Option Nat := none
  publishedBylines : List Byline := []
  publication : Option PublicationInfo := none
deriving Repr, DecidableEq

/-- `p.get("type") == "newsletter"`: the filter applied at the end of
`fetch_archive`. -/
def isNewsletter (p : RawPost) : Bool := p.type = some "newsletter"

/-- The paging loop of `fetch_archive`.  `api off` is the response to
the request at `offset = off`: `none` is a transport failure
(`raise_for_status` / network error), `some ps` a JSON list.  The
result is `none` when `fuel` ran out (the Python loop would still be
running), `some (.error ())` when a page request raised, and
`some (.ok acc)` when an empty page ended the loop. -/
def fetchArchiveLoop (api : Nat → Option (List RawPost)) :
    Nat → Nat → List RawPost → Option (Except Unit (List RawPost))
  | 0, _, _ => none
  | fuel + 1, off, acc =>
    match api off with
    | none => some (.error ())
    | some ps =>
      if ps = [] then some (.ok acc)
      else fetchArchiveLoop api fuel (off + ps.length) (acc ++ ps)

/-- `fetch_archive`: run the paging loop from offset 0 and keep only
entries of type `"newsletter"`. -/
def fetch_archive (api : Nat → Option (List RawPost)) (fuel : Nat) :
    Option (Except Unit (List RawPost)) :=
  (fetchArchiveLoop api fuel 0 []).map (fun r => r.map (List.filter isNewsletter))

/-- The offset the loop requests at its `k`-th iteration: the sum of
the lengths of the pages actually returned before it. -/
def offsetAt (api : Nat → Option (List RawPost)) : Nat → Nat
  | 0 => 0
  | k + 1 => offsetAt api k + ((api (offsetAt api k)).getD []).length

/-- The page returned at the loop's `k`-th iteration. -/
def pageAt (api : Nat → Option (List RawPost)) (k : Nat) : List RawPost :=
  (api (offsetAt api k)).getD []

/-- Concatenation, in request order, of pages `m, m+1, ..., m+d-1`. -/
def collectFrom (api : Nat → Option (List RawPost)) : Nat → Nat → List RawPost
  | _, 0 => []
  | m, d + 1 => pageAt api m ++ collectFrom api (m + 1) d

/-- The host portion of a URL: `urlparse(u).netloc or urlparse(u).path`.
For scheme-less input `urlparse` puts the whole string in `path`. -/
def hostOf (u : String) : String :=
  if startsWithL u.data "http://".data then ⟨(u.data.drop 7).takeWhile (· ≠ '/')⟩
  else if startsWithL u.data "https://".data then ⟨(u.data.drop 8).takeWhile (· ≠ '/')⟩
  else u

/-- The publication slug derived from a base URL: the first dot-separated
component of the host when it is a `.substack.com` host, else the host. -/
def slugOf (base_url : String) : String :=
  let host := hostOf base_url
  if containsL host.data ".substack.com".data then ⟨host.data.takeWhile (· ≠ '.')⟩
  else host

/-- The author loop of `extract_newsletter_metadata`: the `name` of the
first byline of the first post whose `publishedBylines` list is
non-empty (that `name` may itself be absent). -/
def firstAuthor : List RawPost → Option String
  | [] => none
  | p :: rest =>
    match p.publishedBylines with
    | [] => firstAuthor rest
    | b :: _ => b.name

/-- The publication-name loop: the first truthy `publication.name`. -/
def firstPubName : List RawPost → Option String
  | [] => none
  | p :: rest =>
    let nm := p.publication.bind (·.name)
    if pyTruthy nm then nm else firstPubName rest

/-- The description loop: the first truthy `publication.hero_text`. -/
def firstHeroText : List RawPost → Option String
  | [] => none
  | p :: rest =>
    let ht := p.publication.bind (·.hero_text)
    if pyTruthy ht then ht else firstHeroText rest

/-- The newsletter row shape (also the dict built by
`extract_newsletter_metadata`). -/
structure NewsletterRow where
  name : String
  slug : String
  url : String
  description : Option String
  author : Option String
  last_fetched : Option String
deriving Repr, DecidableEq

/-- `extract_newsletter_metadata`: publication-level metadata from the
aggregated listing.  `name` falls back to the slug. -/
def extract_newsletter_metadata (base_url : String) (posts : List RawPost) :
    NewsletterRow :=
  let slug := slugOf base_url
  { name := (firstPubName posts).getD slug
    slug := slug
    url := base_url
    description := firstHeroText posts
    author := firstAuthor posts
    last_fetched := none }

/-- Python `a or b` for an optional string default (`None` and `""`
are falsy). -/
def pyOrStr (o : Option String) (d : String) : String :=
  match o with
  | some s => if s = "" then d else s
  | none => d

/-- The dict built by `parse_post_metadata`. -/
structure PostMeta where
  title : String
  subtitle : Option String
  url : String
  published_date : Option String
  audience : String
  reaction_count : Int
  comment_count : Int
  reactions_json : Option (List (String × Int))
  categories : Option (List String)
  featured_image_url : Option String
  word_count_from_api : Option Nat
  post_slug : Option String
deriving Repr, DecidableEq

/-- `parse_post_metadata`: map one raw listing entry into the article
schema.  The canonical URL falls back to `{base}/p/{slug}`; counts
default to 0; `reactions`/tags are serialized only when non-empty
(serialization is modelled structurally, `json.dumps` being injective). -/
def parse_post_metadata (post : RawPost) (base_url : String) : PostMeta :=
  let tag_names := post.postTags.map (fun t => t.name.getD "")
  { title := post.title.getD "Untitled"
    subtitle := post.subtitle
    url := pyOrStr post.canonical_url (base_url ++ "/p/" ++ post.slug.getD "")
    published_date := post.post_date
    audience := post.audience.getD "everyone"
    reaction_count := post.reaction_count.getD 0
    comment_count := post.comment_count.getD 0
    reactions_json := if post.reactions = [] then none else some post.reactions
    categories := if tag_names = [] then none else some tag_names
    featured_image_url := post.cover_image
    word_count_from_api := post.wordcount
    post_slug := post.slug }

/-! ## `src/db/schema.py`, `src/db/operations.py` — Archive Store

The `articles` table (unique `url`) is a list of rows in insertion
order; the singleton `newsletter` table is an `Option NewsletterRow`. -/

/-- One row of the `articles` table.  `content_html` holds the raw
markup in its parsed form. -/
structure ArticleRow where
  title : String
  subtitle : Option String
  url : String
  published_date : Option String
  content_html : List Html
  content_text : String
  word_count : Nat
  audience : String
  reaction_count : Int
  comment_count : Int
  reactions_json : Option (List (String × Int))
  categories : Option (List String)
  featured_image_url : Option String
  fetched_at : String
deriving Repr

/-- `get_article_urls`: the URLs already in the store. -/
def get_article_urls (store : List ArticleRow) : List String := store.map (·.url)

/-- `upsert_article`: `INSERT` into a table with `url UNIQUE`.  On a
duplicate URL the statement raises `IntegrityError`, which is caught
and reported as `false` with the store untouched; otherwise the row is
appended and `true` returned. -/
def upsert_article (store : List ArticleRow) (a : ArticleRow) :
    List ArticleRow × Bool :=
  if a.url ∈ get_article_urls store then (store, false) else (store ++ [a], true)

/-- `upsert_newsletter`: `INSERT ... ON CONFLICT(id) DO UPDATE` on the
singleton row — the row always ends up equal to the data. -/
def upsert_newsletter (_row : Option NewsletterRow) (data : NewsletterRow) :
    Option NewsletterRow := some data

/-- `update_last_fetched`: `UPDATE newsletter SET last_fetched = now
WHERE id = 1` — a no-op when the row does not exist. -/
def update_last_fetched (row : Option NewsletterRow) (now : String) :
    Option NewsletterRow :=
  row.map (fun r => { r with last_fetched := some now })

/-! ## `src/ingest_runner.py` — Ingestion Orchestrator

`fetch_post_content` (network + external `substack_api`) is an oracle
from the listing entry's `post_slug` to the parsed markup, `none` on
failure.  Timestamps (`datetime.now`) are oracle parameters too. -/

/-- The article record built in the loop body of `main` (lines 80–99):
normalize the markup, compute the word count from the normalized text,
falling back to the listing's `wordcount` hint only when the text is
empty. -/
def buildArticle (meta : PostMeta) (doc : List Html) (now : String) : ArticleRow :=
  let text := html_to_text (some doc)
  { title := meta.title
    subtitle := meta.subtitle
    url := meta.url
    published_date := meta.published_date
    content_html := doc
    content_text := text
    word_count := if text = "" then meta.word_count_from_api.getD 0 else countWords text
    audience := meta.audience
    reaction_count := meta.reaction_count
    comment_count := meta.comment_count
    reactions_json := meta.reactions_json
    categories := meta.categories
    featured_image_url := meta.featured_image_url
    fetched_at := now }

/-- Outcome of the per-post loop of `main`: the summary counters, the
final `articles` table, and the `post_slug` arguments of every
`fetch_post_content` call, in call order. -/
structure LoopResult where
  saved : Nat
  skipped : Nat
  failed : Nat
  store : List ArticleRow
  fetched : List (Option String)
deriving Repr

/-- The per-post loop of `main` (lines 59–109).  `existing` is the
URL set precomputed before the loop; `now i` is the wall clock at the
`i`-th listing entry.  A listing entry whose URL is in `existing` is
skipped without a content fetch; a failed content fetch is counted and
the loop continues; otherwise the article is built and inserted,
counting `saved` or `skipped` by the insert outcome. -/
def runLoop (fetch : Option String → Option (List Html)) (base : String)
    (existing : List String) (now : Nat → String) :
    List RawPost → Nat → List ArticleRow → LoopResult
  | [], _, store => { saved := 0, skipped := 0, failed := 0, store := store, fetched := [] }
  | p :: rest, i, store =>
    let meta := parse_post_metadata p base
    if meta.url ∈ existing then
      let r := runLoop fetch base existing now rest (i + 1) store
      { r with skipped := r.skipped + 1 }
    else
      match fetch meta.post_slug with
      | none =>
        let r := runLoop fetch base existing now rest (i + 1) store
        { r with failed := r.failed + 1, fetched := meta.post_slug :: r.fetched }
      | some doc =>
        let a := buildArticle meta doc (now i)
        let res := upsert_article store a
        let r := runLoop fetch base existing now rest (i + 1) res.1
        if res.2 then { r with saved := r.saved + 1, fetched := meta.post_slug :: r.fetched }
        else { r with skipped := r.skipped + 1, fetched := meta.post_slug :: r.fetched }

/-- The mutable store: the singleton `newsletter` row and the
`articles` table. -/
structure DbState where
  newsletter : Option NewsletterRow
  articles : List ArticleRow
deriving Repr

/-- What a finished run of `main` produced: the process exit code, the
final store, the summary counters and the content-fetch log. -/
structure RunOutcome where
  exitCode : Nat
  state : DbState
  saved : Nat
  skipped : Nat
  failed : Nat
  fetched : List (Option String)
deriving Repr

/-- `main`: fetch the archive (exit 1 on a transport error; an empty
filtered listing returns early with no store writes), upsert the
newsletter metadata with `last_fetched = nowStart`, precompute the
existing-URL set unless `--full`, run the per-post loop, and finally
set `last_fetched = nowEnd`.  The result is `none` only when the
paging loop's fuel ran out (the Python process would still be
looping). -/
def mainRun (api : Nat → Option (List RawPost))
    (fetch : Option String → Option (List Html)) (full : Bool) (fuel : Nat)
    (base : String) (nowStart nowEnd : String) (now : Nat → String)
    (st : DbState) : Option RunOutcome :=
  match fetch_archive api fuel with
  | none => none
  | some (.error _) =>
    some { exitCode := 1, state := st, saved := 0, skipped := 0, failed := 0, fetched := [] }
  | some (.ok posts) =>
    if posts = [] then
      some { exitCode := 0, state := st, saved := 0, skipped := 0, failed := 0, fetched := [] }
    else
      let nlMeta := { extract_newsletter_metadata base posts with last_fetched := some nowStart }
      let st1 : DbState := { st with newsletter := upsert_newsletter st.newsletter nlMeta }
      let existing := if full then [] else get_article_urls st.articles
      let r := runLoop fetch base existing now posts 0 st.articles
      let st2 : DbState :=
        { newsletter := update_last_fetched st1.newsletter nowEnd, articles := r.store }
      some { exitCode := 0, state := st2, saved := r.saved, skipped := r.skipped,
             failed := r.failed, fetched := r.fetched }

/-! ## Concrete fixtures for scenarios, counterexamples and witnesses -/

/-- `True` when the string does not end in Python whitespace. -/
def noTrailingWS (s : String) : Bool :=
  match s.data.getLast? with
  | none => true
  | some c => !pyIsSpace c

/-- No three consecutive newlines anywhere; `k` counts the newlines
immediately before the current position. -/
def noTripleNLAux : Nat → List Char → Bool
  | _, [] => true
  | k, c :: rest =>
    if c = '\n' then decide (k + 1 < 3) && noTripleNLAux (k + 1) rest
    else noTripleNLAux 0 rest

/-- The string has no run of three or more newlines. -/
def noTripleNL (l : List Char) : Bool := noTripleNLAux 0 l

/-- No two adjacent horizontal-whitespace characters; `prev` records
whether the previous character was horizontal whitespace. -/
def noDoubleHSAux : Bool → List Char → Bool
  | _, [] => true
  | prev, c :: rest =>
    if isHSpace c then !prev && noDoubleHSAux true rest
    else noDoubleHSAux false rest

/-- The string has no run of two or more horizontal-whitespace
characters. -/
def noDoubleHS (l : List Char) : Bool := noDoubleHSAux false l

/-- Every horizontal-whitespace character is a plain space. -/
def allHSSpace (l : List Char) : Bool := l.all (fun c => !isHSpace c || c = ' ')

/-- Neither end of the string is Python whitespace. -/
def trimmedEnds (l : List Char) : Bool :=
  (match l.head? with | none => true | some c => !pyIsSpace c) &&
  (match l.getLast? with | none => true | some c => !pyIsSpace c)

/-- Two paragraphs separated by four explicit line breaks of raw text. -/
def para4Doc : List Html :=
  [Html.tag "p" [Html.text "A"], Html.text "\n\n\n\n", Html.tag "p" [Html.text "B"]]

/-- A concrete stored article row. -/
def sampleArticle : ArticleRow :=
  { title := "Hello", subtitle := none, url := "https://demo.substack.com/p/hello"
    published_date := some "2024-01-01", content_html := [Html.text "Hello world"]
    content_text := "Hello world", word_count := 2, audience := "everyone"
    reaction_count := 3, comment_count := 1, reactions_json := none
    categories := none, featured_image_url := none, fetched_at := "2024-01-02" }

/-- Listing entry A of the filtering scenario: a newsletter post. -/
def postA : RawPost :=
  { type := some "newsletter", title := some "A", slug := some "a"
    canonical_url := some "https://demo.substack.com/p/a" }

/-- Listing entry B of the filtering scenario: a reshare. -/
def postB : RawPost :=
  { type := some "reshare", title := some "B", slug := some "b"
    canonical_url := some "https://demo.substack.com/p/b" }

/-- Listing entry C of the filtering scenario: a newsletter post. -/
def postC : RawPost :=
  { type := some "newsletter", title := some "C", slug := some "c"
    canonical_url := some "https://demo.substack.com/p/c" }

/-- An archive API serving one page `[A, B, C]` and then empty pages. -/
def apiABC : Nat → Option (List RawPost) :=
  fun off => if off = 0 then some [postA, postB, postC] else some []

/-- An archive API whose very first page is empty. -/
def apiEmpty : Nat → Option (List RawPost) := fun _ => some []

/-- A content fetcher that fails on every post. -/
def fetchNone : Option String → Option (List Html) := fun _ => none

/-- A content fetcher that succeeds on every post with a fixed body. -/
def fetchHello : Option String → Option (List Html) :=
  fun _ => some [Html.tag "p" [Html.text "Hello world"]]

/-- A newsletter row that was never fetched. -/
def nlRowInitial : NewsletterRow :=
  { name := "demo", slug := "demo", url := "https://demo.substack.com"
    description := none, author := none, last_fetched := none }

/-- A store state with a newsletter row that was never fetched. -/
def stInitial : DbState := { newsletter := some nlRowInitial, articles := [] }

/-! ## Helper lemmas on the string primitives -/

theorem startsWithL_append (x y : List Char) : startsWithL (x ++ y) x = true := by
  induction x with
  | nil => cases y <;> rfl
  | cons c l ih => simp [startsWithL, ih]

theorem dropTrailing_cons (p : Char → Bool) (d : Char) (rest : List Char) :
    dropTrailing p (d :: rest) =
      if dropTrailing p rest = [] && p d then [] else d :: dropTrailing p rest := rfl

theorem dropTrailing_getLast {p : Char → Bool} :
    ∀ {l : List Char} {c : Char}, (dropTrailing p l).getLast? = some c → p c = false := by
  intro l
  induction l with
  | nil => intro c h; simp [dropTrailing] at h
  | cons d rest ih =>
    intro c h
    rw [dropTrailing_cons] at h
    by_cases hr : dropTrailing p rest = []
    · by_cases hp : p d = true
      · rw [if_pos (by simp [hr, hp])] at h
        simp at h
      · rw [if_neg (by simp [hp]), hr] at h
        simp only [List.getLast?_singleton, Option.some.injEq] at h
        subst h
        simpa using hp
    · rw [if_neg (by simp [hr])] at h
      rw [show d :: dropTrailing p rest = [d] ++ dropTrailing p rest from rfl,
        List.getLast?_append_of_ne_nil [d] hr] at h
      exact ih h

theorem dropTrailing_eq_self {p : Char → Bool} :
    ∀ {l : List Char}, (∀ c, l.getLast? = some c → p c = false) → dropTrailing p l = l := by
  intro l
  induction l with
  | nil => intro _; rfl
  | cons d rest ih =>
    intro h
    rcases rest with _ | ⟨e, rest'⟩
    · have := h d rfl
      rw [dropTrailing_cons, if_neg (by simp [this])]
      rfl
    · have hrest : ∀ c, (e :: rest').getLast? = some c → p c = false := by
        intro c hc
        apply h
        rw [show d :: e :: rest' = [d] ++ e :: rest' from rfl,
          List.getLast?_append_of_ne_nil [d] (by simp)]
        exact hc
      have heq := ih hrest
      rw [dropTrailing_cons, heq, if_neg (by simp)]

theorem pyStrip_eq_self {l : List Char}
    (hh : ∀ c, l.head? = some c → pyIsSpace c = false)
    (hl : ∀ c, l.getLast? = some c → pyIsSpace c = false) : pyStrip l = l := by
  unfold pyStrip
  have hdw : l.dropWhile pyIsSpace = l := by
    rcases l with _ | ⟨c, rest⟩
    · rfl
    · have := hh c rfl
      simp [List.dropWhile_cons, this]
  rw [hdw]
  exact dropTrailing_eq_self hl

theorem startsWithL_head {l pat : List Char} {d : Char}
    (h : startsWithL l (d :: pat) = true) : ∃ tl, l = d :: tl := by
  cases l with
  | nil => simp [startsWithL] at h
  | cons c tl =>
    simp only [startsWithL, Bool.and_eq_true, decide_eq_true_eq] at h
    exact ⟨tl, by rw [h.1]⟩

/-- `resolve_base_url` output always starts with an http(s) scheme. -/
theorem resolve_base_url_scheme (s : String) :
    (startsWithL (resolve_base_url s).data "http://".data
      || startsWithL (resolve_base_url s).data "https://".data) = true := by
  unfold resolve_base_url
  set n := pyRstripSlash (pyStripStr s) with hn
  by_cases h1 : (startsWithL n.data "http://".data
      || startsWithL n.data "https://".data) = true
  · rw [if_pos h1]; exact h1
  · rw [if_neg h1]
    by_cases h2 : containsL n.data ['.'] = true
    · rw [if_pos h2]
      apply Bool.or_eq_true_iff.mpr
      right
      rw [String.data_append]
      exact startsWithL_append _ _
    · rw [if_neg h2]
      apply Bool.or_eq_true_iff.mpr
      right
      rw [String.data_append, String.data_append, List.append_assoc]
      exact startsWithL_append _ _

/-- `resolve_base_url` output never ends with a slash. -/
theorem resolve_base_url_no_trailing_slash (s : String) :
    ∀ {c : Char}, (resolve_base_url s).data.getLast? = some c → c ≠ '/' := by
  intro c
  unfold resolve_base_url
  set n := pyRstripSlash (pyStripStr s) with hn
  have hdt : ∀ {d : Char}, n.data.getLast? = some d → d ≠ '/' := by
    intro d hd
    have : decide (d = '/') = false := @dropTrailing_getLast (fun x => decide (x = '/')) _ _ hd
    simpa using this
  by_cases h1 : (startsWithL n.data "http://".data
      || startsWithL n.data "https://".data) = true
  · rw [if_pos h1]; exact hdt
  · rw [if_neg h1]
    by_cases h2 : containsL n.data ['.'] = true
    · rw [if_pos h2]
      have hne : n.data ≠ [] := by
        intro he
        rw [he] at h2
        simp [containsL, List.isEmpty] at h2
      rw [String.data_append, List.getLast?_append_of_ne_nil _ hne]
      exact hdt
    · rw [if_neg h2]
      rw [String.data_append, String.data_append,
        List.getLast?_append_of_ne_nil _ (show (".substack.com".data : List Char) ≠ [] by decide)]
      intro hc
      have : (".substack.com".data).getLast? = some 'm' := by decide
      rw [this] at hc
      cases hc
      decide

/-! ## Helper lemmas on the archive store and the run loop -/

/-- The run loop only ever appends to the `articles` table. -/
theorem runLoop_store_extends (fetch : Option String → Option (List Html))
    (base : String) (existing : List String) (now : Nat → String) :
    ∀ (posts : List RawPost) (i : Nat) (store : List ArticleRow),
      ∃ ext, (runLoop fetch base existing now posts i store).store = store ++ ext := by
  intro posts
  induction posts with
  | nil => intro i store; exact ⟨[], by simp [runLoop]⟩
  | cons p rest ih =>
    intro i store
    simp only [runLoop]
    by_cases hmem : (parse_post_metadata p base).url ∈ existing
    · simpa [hmem] using ih (i + 1) store
    · simp only [hmem, if_false]
      cases hf : fetch (parse_post_metadata p base).post_slug with
      | none => simpa using ih (i + 1) store
      | some doc =>
        simp only []
        set a := buildArticle (parse_post_metadata p base) doc (now i) with ha
        by_cases hins : a.url ∈ get_article_urls store
        · have hres : upsert_article store a = (store, false) := by
            simp [upsert_article, hins]
          rcases ih (i + 1) store with ⟨ext, hext⟩
          refine ⟨ext, ?_⟩
          simp [hres, hext]
        · have hres : upsert_article store a = (store ++ [a], true) := by
            simp [upsert_article, hins]
          rcases ih (i + 1) (store ++ [a]) with ⟨ext, hext⟩
          refine ⟨a :: ext, ?_⟩
          simp [hres, hext]

/-- A URL present in the store stays present through the run loop. -/
theorem runLoop_store_mono {fetch : Option String → Option (List Html)}
    {base : String} {existing : List String} {now : Nat → String}
    {posts : List RawPost} {i : Nat} {store : List ArticleRow} {u : String}
    (h : u ∈ get_article_urls store) :
    u ∈ get_article_urls (runLoop fetch base existing now posts i store).store := by
  rcases runLoop_store_extends fetch base existing now posts i store with ⟨ext, hext⟩
  rw [hext]
  simp only [get_article_urls, List.map_append, List.mem_append]
  exact Or.inl h


/-- The inserted row's URL is in the store after any `upsert_article`. -/
theorem upsert_article_url_mem (store : List ArticleRow) (a : ArticleRow) :
    a.url ∈ get_article_urls (upsert_article store a).1 := by
  by_cases hm : a.url ∈ get_article_urls store
  · rw [show upsert_article store a = (store, false) from by simp [upsert_article, hm]]
    exact hm
  · rw [show upsert_article store a = (store ++ [a], true) from by simp [upsert_article, hm]]
    show a.url ∈ get_article_urls (store ++ [a])
    simp [get_article_urls]

/-- `upsert_article` never removes a URL from the store. -/
theorem upsert_article_mem_mono {store : List ArticleRow} {a : ArticleRow} {u : String}
    (h : u ∈ get_article_urls store) : u ∈ get_article_urls (upsert_article store a).1 := by
  by_cases hm : a.url ∈ get_article_urls store
  · rw [show upsert_article store a = (store, false) from by simp [upsert_article, hm]]
    exact h
  · rw [show upsert_article store a = (store ++ [a], true) from by simp [upsert_article, hm]]
    show u ∈ get_article_urls (store ++ [a])
    simp only [get_article_urls, List.map_append, List.mem_append]
    exact Or.inl h

/-- When every listing entry's URL is in the precomputed set, the loop
skips everything: nothing is saved, nothing fails, the store is
untouched and no content fetch happens. -/
theorem runLoop_all_existing {fetch : Option String → Option (List Html)} {base : String}
    {existing : List String} {now : Nat → String} :
    ∀ (posts : List RawPost) (i : Nat) (store : List ArticleRow),
      (∀ p ∈ posts, (parse_post_metadata p base).url ∈ existing) →
      runLoop fetch base existing now posts i store =
        { saved := 0, skipped := posts.length, failed := 0, store := store, fetched := [] } := by
  intro posts
  induction posts with
  | nil => intro i store _; rfl
  | cons p rest ih =>
    intro i store h
    have hp := h p (List.mem_cons_self p rest)
    have hrest := fun q hq => h q (List.mem_cons_of_mem p hq)
    simp only [runLoop, hp, if_pos]
    rw [ih (i + 1) store hrest]
    rfl

/-- After a loop with no failures, every listing entry's URL is in the
final store, provided the precomputed set only named stored URLs. -/
theorem runLoop_no_failures_all_stored {fetch : Option String → Option (List Html)}
    {base : String} {existing : List String} {now : Nat → String} :
    ∀ (posts : List RawPost) (i : Nat) (store : List ArticleRow),
      (∀ u ∈ existing, u ∈ get_article_urls store) →
      (runLoop fetch base existing now posts i store).failed = 0 →
      ∀ p ∈ posts, (parse_post_metadata p base).url ∈
        get_article_urls (runLoop fetch base existing now posts i store).store := by
  intro posts
  induction posts with
  | nil => intro i store _ _ p hp; cases hp
  | cons p rest ih =>
    intro i store hsub h0 q hq
    by_cases hmem : (parse_post_metadata p base).url ∈ existing
    · have hunf : runLoop fetch base existing now (p :: rest) i store =
          { runLoop fetch base existing now rest (i + 1) store with
              skipped := (runLoop fetch base existing now rest (i + 1) store).skipped + 1 } := by
        simp [runLoop, hmem]
      rw [hunf] at h0 ⊢
      rcases List.mem_cons.mp hq with hq1 | hq2
      · subst hq1
        exact runLoop_store_mono (hsub _ hmem)
      · exact ih (i + 1) store hsub h0 q hq2
    · cases hf : fetch (parse_post_metadata p base).post_slug with
      | none =>
        have hunf : runLoop fetch base existing now (p :: rest) i store =
            { runLoop fetch base existing now rest (i + 1) store with
                failed := (runLoop fetch base existing now rest (i + 1) store).failed + 1,
                fetched := (parse_post_metadata p base).post_slug ::
                  (runLoop fetch base existing now rest (i + 1) store).fetched } := by
          simp [runLoop, hmem, hf]
        rw [hunf] at h0
        simp at h0
      | some doc =>
        set a := buildArticle (parse_post_metadata p base) doc (now i) with ha
        set store' := (upsert_article store a).1 with hst
        have hunf : runLoop fetch base existing now (p :: rest) i store =
            (if (upsert_article store a).2 then
              { runLoop fetch base existing now rest (i + 1) store' with
                  saved := (runLoop fetch base existing now rest (i + 1) store').saved + 1,
                  fetched := (parse_post_metadata p base).post_slug ::
                    (runLoop fetch base existing now rest (i + 1) store').fetched }
            else
              { runLoop fetch base existing now rest (i + 1) store' with
                  skipped := (runLoop fetch base existing now rest (i + 1) store').skipped + 1,
                  fetched := (parse_post_metadata p base).post_slug ::
                    (runLoop fetch base existing now rest (i + 1) store').fetched }) := by
          simp only [runLoop, hmem, if_neg, hf]
          rfl
        have hsub' : ∀ u ∈ existing, u ∈ get_article_urls store' :=
          fun u hu => upsert_article_mem_mono (hsub u hu)
        have hfail' : (runLoop fetch base existing now rest (i + 1) store').failed = 0 := by
          rw [hunf] at h0
          by_cases hi : (upsert_article store a).2 <;> simpa [hi] using h0
        rcases List.mem_cons.mp hq with hq1 | hq2
        · subst hq1
          have hmem' : (parse_post_metadata q base).url ∈ get_article_urls store' :=
            upsert_article_url_mem store a
          have hfin := @runLoop_store_mono fetch base existing now rest (i + 1) store' _ hmem'
          rw [hunf]
          by_cases hi : (upsert_article store a).2 <;> simpa [hi] using hfin
        · have := ih (i + 1) store' hsub' hfail' q hq2
          rw [hunf]
          by_cases hi : (upsert_article store a).2 <;> simpa [hi] using this

/-- Any URL in the final store was either stored before the loop or is
the URL of a listing entry whose content fetch succeeded. -/
theorem runLoop_new_urls_from_fetched {fetch : Option String → Option (List Html)}
    {base : String} {existing : List String} {now : Nat → String} :
    ∀ (posts : List RawPost) (i : Nat) (store : List ArticleRow) (u : String),
      u ∈ get_article_urls (runLoop fetch base existing now posts i store).store →
      u ∈ get_article_urls store ∨
        ∃ p ∈ posts, (parse_post_metadata p base).url = u ∧
          fetch (parse_post_metadata p base).post_slug ≠ none := by
  intro posts
  induction posts with
  | nil => intro i store u h; exact Or.inl h
  | cons p rest ih =>
    intro i store u h
    by_cases hmem : (parse_post_metadata p base).url ∈ existing
    · rw [show runLoop fetch base existing now (p :: rest) i store =
          { runLoop fetch base existing now rest (i + 1) store with
              skipped := (runLoop fetch base existing now rest (i + 1) store).skipped + 1 }
          from by simp [runLoop, hmem]] at h
      rcases ih (i + 1) store u h with h1 | ⟨q, hq, h2⟩
      · exact Or.inl h1
      · exact Or.inr ⟨q, List.mem_cons_of_mem p hq, h2⟩
    · cases hf : fetch (parse_post_metadata p base).post_slug with
      | none =>
        rw [show runLoop fetch base existing now (p :: rest) i store =
            { runLoop fetch base existing now rest (i + 1) store with
                failed := (runLoop fetch base existing now rest (i + 1) store).failed + 1,
                fetched := (parse_post_metadata p base).post_slug ::
                  (runLoop fetch base existing now rest (i + 1) store).fetched }
            from by simp [runLoop, hmem, hf]] at h

        rcases ih (i + 1) store u h with h1 | ⟨q, hq, h2⟩
        · exact Or.inl h1
        · exact Or.inr ⟨q, List.mem_cons_of_mem p hq, h2⟩
      | some doc =>
        set a := buildArticle (parse_post_metadata p base) doc (now i) with ha
        set store' := (upsert_article store a).1 with hst
        have hstore : (runLoop fetch base existing now (p :: rest) i store).store =
            (runLoop fetch base existing now rest (i + 1) store').store := by
          simp only [runLoop, hmem, if_neg, hf]
          by_cases hi : (upsert_article store a).2 <;> simp [hi, hst]
        rw [hstore] at h
        rcases ih (i + 1) store' u h with h1 | ⟨q, hq, h2⟩
        · by_cases hm2 : a.url ∈ get_article_urls store
          · rw [hst, show upsert_article store a = (store, false) from
              by simp [upsert_article, hm2]] at h1
            exact Or.inl h1
          · rw [hst, show upsert_article store a = (store ++ [a], true) from
              by simp [upsert_article, hm2]] at h1
            have h1' : u ∈ get_article_urls store ++ [a.url] := by
              simpa [get_article_urls] using h1
            rcases List.mem_append.mp h1' with h1 | h1
            · exact Or.inl h1
            · rw [List.mem_singleton] at h1
              subst h1
              exact Or.inr ⟨p, List.mem_cons_self p rest, rfl, by simp [hf]⟩
        · exact Or.inr ⟨q, List.mem_cons_of_mem p hq, h2⟩

/-- Every row the loop adds to the store has its word count computed
from its own normalized text whenever that text is non-empty. -/
theorem runLoop_word_count_invariant {fetch : Option String → Option (List Html)}
    {base : String} {existing : List String} {now : Nat → String} :
    ∀ (posts : List RawPost) (i : Nat) (store : List ArticleRow) (a : ArticleRow),
      a ∈ (runLoop fetch base existing now posts i store).store →
      a ∈ store ∨ (a.content_text ≠ "" → a.word_count = countWords a.content_text) := by
  intro posts
  induction posts with
  | nil => intro i store a h; exact Or.inl h
  | cons p rest ih =>
    intro i store a h
    by_cases hmem : (parse_post_metadata p base).url ∈ existing
    · rw [show runLoop fetch base existing now (p :: rest) i store =
          { runLoop fetch base existing now rest (i + 1) store with
              skipped := (runLoop fetch base existing now rest (i + 1) store).skipped + 1 }
          from by simp [runLoop, hmem]] at h
      exact ih (i + 1) store a h
    · cases hf : fetch (parse_post_metadata p base).post_slug with
      | none =>
        rw [show runLoop fetch base existing now (p :: rest) i store =
            { runLoop fetch base existing now rest (i + 1) store with
                failed := (runLoop fetch base existing now rest (i + 1) store).failed + 1,
                fetched := (parse_post_metadata p base).post_slug ::
                  (runLoop fetch base existing now rest (i + 1) store).fetched }
            from by simp [runLoop, hmem, hf]] at h
        exact ih (i + 1) store a h
      | some doc =>
        set b := buildArticle (parse_post_metadata p base) doc (now i) with hb
        set store' := (upsert_article store b).1 with hst
        have hstore : (runLoop fetch base existing now (p :: rest) i store).store =
            (runLoop fetch base existing now rest (i + 1) store').store := by
          simp only [runLoop, hmem, if_neg, hf]
          by_cases hi : (upsert_article store b).2 <;> simp [hi, hst]
        rw [hstore] at h
        rcases ih (i + 1) store' a h with h1 | h1
        · by_cases hm2 : b.url ∈ get_article_urls store
          · rw [hst, show upsert_article store b = (store, false) from
              by simp [upsert_article, hm2]] at h1
            exact Or.inl h1
          · rw [hst, show upsert_article store b = (store ++ [b], true) from
              by simp [upsert_article, hm2]] at h1
            have h1' : a ∈ store ++ [b] := h1
            rcases List.mem_append.mp h1' with h2 | h2
            · exact Or.inl h2
            · rw [List.mem_singleton] at h2
              subst h2
              refine Or.inr fun hne => ?_
              simp only [hb, buildArticle] at hne ⊢
              rw [if_neg (by simpa using hne)]
        · exact Or.inr h1

/-- The author loop is a first-match scan over the listing order. -/
theorem firstAuthor_eq_find (posts : List RawPost) :
    firstAuthor posts = (posts.find? (fun p => !p.publishedBylines.isEmpty)).bind
      (fun p => p.publishedBylines.head?.bind (·.name)) := by
  induction posts with
  | nil => rfl
  | cons p rest ih =>
    cases hb : p.publishedBylines with
    | nil => simp [firstAuthor, hb, List.find?, ih]
    | cons b bs => simp [firstAuthor, hb, List.find?]

/-- The publication-name loop is a first-truthy scan over the listing
order. -/
theorem firstPubName_eq_find (posts : List RawPost) :
    firstPubName posts =
      (posts.find? (fun p => pyTruthy (p.publication.bind (·.name)))).bind
        (fun p => p.publication.bind (·.name)) := by
  induction posts with
  | nil => rfl
  | cons p rest ih =>
    by_cases ht : pyTruthy (p.publication.bind (·.name)) = true
    · simp [firstPubName, ht, List.find?]
    · simp only [Bool.not_eq_true] at ht
      simp [firstPubName, ht, List.find?, ih]

/-- The description loop is a first-truthy scan over the listing order. -/
theorem firstHeroText_eq_find (posts : List RawPost) :
    firstHeroText posts =
      (posts.find? (fun p => pyTruthy (p.publication.bind (·.hero_text)))).bind
        (fun p => p.publication.bind (·.hero_text)) := by
  induction posts with
  | nil => rfl
  | cons p rest ih =>
    by_cases ht : pyTruthy (p.publication.bind (·.hero_text)) = true
    · simp [firstHeroText, ht, List.find?]
    · simp only [Bool.not_eq_true] at ht
      simp [firstHeroText, ht, List.find?, ih]

/-! ## Claim C2 -/

/-- C2: article URLs are unique in the store and `upsert_article` is
insert-if-absent: when the url already exists it returns `false` and
leaves the whole store unmodified; when absent it appends the row and
returns `true`; URL-uniqueness (`Nodup`) is preserved either way. -/
theorem C2_article_url_unique_insert_if_absent (store : List ArticleRow) (a : ArticleRow) :
    (a.url ∈ get_article_urls store → upsert_article store a = (store, false)) ∧
    (a.url ∉ get_article_urls store → upsert_article store a = (store ++ [a], true)) ∧
    ((get_article_urls store).Nodup → (get_article_urls (upsert_article store a).1).Nodup) := by
  refine ⟨fun h => ?_, fun h => ?_, fun h => ?_⟩
  · simp [upsert_article, h]
  · simp [upsert_article, h]
  · by_cases hm : a.url ∈ get_article_urls store
    · simpa [upsert_article, hm] using h
    · have hu : upsert_article store a = (store ++ [a], true) := by
        simp [upsert_article, hm]
      rw [hu]
      show (get_article_urls (store ++ [a])).Nodup
      have hsplit : get_article_urls (store ++ [a]) = get_article_urls store ++ [a.url] := by
        simp [get_article_urls]
      rw [hsplit, List.nodup_append]
      refine ⟨h, List.nodup_singleton _, fun x hx hx2 => ?_⟩
      rw [List.mem_singleton] at hx2
      subst hx2
      exact hm hx

/-- Witness for C2: a fresh insert appends and reports `true`; the
second insert of the same row reports `false` and changes nothing. -/
theorem C2_article_url_unique_insert_if_absent_witness :
    upsert_article [] sampleArticle = ([] ++ [sampleArticle], true) ∧
    upsert_article [sampleArticle] sampleArticle = ([sampleArticle], false) :=
  ⟨(C2_article_url_unique_insert_if_absent [] sampleArticle).2.1 (by simp [get_article_urls]),
   (C2_article_url_unique_insert_if_absent [sampleArticle] sampleArticle).1
     (by simp [get_article_urls])⟩

/-! ## Claim C10 -/

/-- C10 counterexample: `resolve_base_url` is not idempotent.  On
`"http://a /"` the strip happens before the trailing-slash strip, so
the result `"http://a "` keeps a trailing space that a second
application removes. -/
theorem C10_resolve_base_url_not_idempotent :
    resolve_base_url (resolve_base_url "http://a /") ≠ resolve_base_url "http://a /" := by
  decide

/-- C10 amended: `resolve_base_url` is idempotent on every input whose
image carries no trailing whitespace (the output always begins with an
http(s) scheme and never ends with a slash, but `rstrip("/")` can
expose whitespace that `strip()` removed the slash behind, so the
trailing-whitespace condition is needed). -/
theorem C10_resolve_base_url_idempotent_no_trailing_ws (s : String)
    (h : noTrailingWS (resolve_base_url s) = true) :
    resolve_base_url (resolve_base_url s) = resolve_base_url s := by
  set r := resolve_base_url s with hr
  have hs := resolve_base_url_scheme s
  rw [← hr] at hs
  have hhead : ∀ c, r.data.head? = some c → pyIsSpace c = false := by
    intro c hc
    rcases Bool.or_eq_true_iff.mp hs with h7 | h8
    · have h77 : startsWithL r.data ('h' :: "ttp://".data) = true := h7
      rcases startsWithL_head h77 with ⟨tl, htl⟩
      rw [htl] at hc
      simp only [List.head?_cons, Option.some.injEq] at hc
      subst hc
      rfl
    · have h88 : startsWithL r.data ('h' :: "ttps://".data) = true := h8
      rcases startsWithL_head h88 with ⟨tl, htl⟩
      rw [htl] at hc
      simp only [List.head?_cons, Option.some.injEq] at hc
      subst hc
      rfl
  have htrail : ∀ c, r.data.getLast? = some c → pyIsSpace c = false := by
    intro c hc
    unfold noTrailingWS at h
    rw [hc] at h
    simpa using h
  have hstrip : pyStripStr r = r := by
    show (⟨pyStrip r.data⟩ : String) = r
    rw [pyStrip_eq_self hhead htrail]
  have hrstrip : pyRstripSlash r = r := by
    show (⟨dropTrailing (fun c => decide (c = '/')) r.data⟩ : String) = r
    rw [dropTrailing_eq_self (fun c hc =>
      decide_eq_false (resolve_base_url_no_trailing_slash s (hr ▸ hc)))]
  show resolve_base_url r = r
  unfold resolve_base_url
  rw [hstrip, hrstrip, if_pos hs]

/-- Witness for C10: a slug input whose resolved URL has no trailing
whitespace, so a second resolution leaves it unchanged. -/
theorem C10_resolve_base_url_idempotent_no_trailing_ws_witness :
    noTrailingWS (resolve_base_url "wonderingaboutai") = true ∧
    resolve_base_url (resolve_base_url "wonderingaboutai") =
      resolve_base_url "wonderingaboutai" :=
  ⟨by decide, C10_resolve_base_url_idempotent_no_trailing_ws "wonderingaboutai" (by decide)⟩

/-! ## Claim C1 -/

/-- C1: an incremental re-run against an unchanged listing is
idempotent.  If the first incremental run (whose existing-URL set is
the store's URL set) had no failures, then a second incremental run
over the same listing saves nothing, fails nothing, skips every entry,
performs no content fetch at all, and leaves the store unchanged. -/
theorem C1_incremental_second_run_saves_nothing
    (fetch1 fetch2 : Option String → Option (List Html)) (base : String)
    (now1 now2 : Nat → String) (posts : List RawPost) (store0 : List ArticleRow)
    (h : (runLoop fetch1 base (get_article_urls store0) now1 posts 0 store0).failed = 0) :
    runLoop fetch2 base
        (get_article_urls
          (runLoop fetch1 base (get_article_urls store0) now1 posts 0 store0).store)
        now2 posts 0
        (runLoop fetch1 base (get_article_urls store0) now1 posts 0 store0).store =
      { saved := 0, skipped := posts.length, failed := 0,
        store := (runLoop fetch1 base (get_article_urls store0) now1 posts 0 store0).store,
        fetched := [] } := by
  apply runLoop_all_existing
  exact runLoop_no_failures_all_stored posts 0 store0 (fun u hu => hu) h

/-- Witness for C1: after a first run that saved `postA`, the second
incremental run skips it, stores nothing new and fetches nothing. -/
theorem C1_incremental_second_run_saves_nothing_witness :
    (runLoop fetchHello "https://demo.substack.com" (get_article_urls [])
        (fun _ => "t") [postA] 0 []).failed = 0 ∧
    runLoop fetchNone "https://demo.substack.com"
        (get_article_urls
          (runLoop fetchHello "https://demo.substack.com" (get_article_urls [])
            (fun _ => "t") [postA] 0 []).store)
        (fun _ => "u") [postA] 0
        (runLoop fetchHello "https://demo.substack.com" (get_article_urls [])
          (fun _ => "t") [postA] 0 []).store =
      { saved := 0, skipped := [postA].length, failed := 0,
        store := (runLoop fetchHello "https://demo.substack.com" (get_article_urls [])
          (fun _ => "t") [postA] 0 []).store,
        fetched := [] } :=
  ⟨rfl, C1_incremental_second_run_saves_nothing fetchHello fetchNone
    "https://demo.substack.com" (fun _ => "t") (fun _ => "u") [postA] [] rfl⟩

/-! ## Claim C4 -/

/-- C4: a content-fetch failure is recoverable and isolated.  (i) For a
non-skipped post whose fetch fails, the loop's effect is exactly the
rest of the loop with `failed` one higher and that single fetch attempt
logged: the store and the other counters are untouched.  (ii) A URL
never stored before whose every listing occurrence fails to fetch is
absent from the final store.  (iii) Whenever the archive fetch
succeeded the run exits with code 0, regardless of the content
fetcher's behavior. -/
theorem C4_content_fetch_failure_isolated :
    (∀ (fetch : Option String → Option (List Html)) (base : String)
        (existing : List String) (now : Nat → String) (p : RawPost)
        (rest : List RawPost) (i : Nat) (store : List ArticleRow),
      (parse_post_metadata p base).url ∉ existing →
      fetch (parse_post_metadata p base).post_slug = none →
      runLoop fetch base existing now (p :: rest) i store =
        { runLoop fetch base existing now rest (i + 1) store with
            failed := (runLoop fetch base existing now rest (i + 1) store).failed + 1,
            fetched := (parse_post_metadata p base).post_slug ::
              (runLoop fetch base existing now rest (i + 1) store).fetched }) ∧
    (∀ (fetch : Option String → Option (List Html)) (base : String)
        (existing : List String) (now : Nat → String) (posts : List RawPost)
        (i : Nat) (store : List ArticleRow) (u : String),
      u ∉ get_article_urls store →
      (∀ p ∈ posts, (parse_post_metadata p base).url = u →
        fetch (parse_post_metadata p base).post_slug = none) →
      u ∉ get_article_urls (runLoop fetch base existing now posts i store).store) ∧
    (∀ (api : Nat → Option (List RawPost)) (fetch : Option String → Option (List Html))
        (full : Bool) (fuel : Nat) (base nowS nowE : String) (now : Nat → String)
        (st : DbState) (posts : List RawPost),
      fetch_archive api fuel = some (.ok posts) →
      (mainRun api fetch full fuel base nowS nowE now st).map (·.exitCode) = some 0) := by
  refine ⟨?_, ?_, ?_⟩
  · intro fetch base existing now p rest i store hmem hf
    simp [runLoop, hmem, hf]
  · intro fetch base existing now posts i store u hu hfail hmem
    rcases runLoop_new_urls_from_fetched posts i store u hmem with h1 | ⟨q, hq, h2, h3⟩
    · exact hu h1
    · exact h3 (hfail q hq h2)
  · intro api fetch full fuel base nowS nowE now st posts harch
    unfold mainRun
    rw [harch]
    by_cases hne : posts = []
    · simp [hne]
    · simp [hne]

/-- Witness for C4: with a fetcher that fails on every post, ingesting
`[postA]` into an empty store counts one failure, persists nothing, and
a whole run over the `[A, B, C]` archive still exits 0. -/
theorem C4_content_fetch_failure_isolated_witness :
    runLoop fetchNone "https://demo.substack.com" [] (fun _ => "t") [postA] 0 [] =
      { runLoop fetchNone "https://demo.substack.com" [] (fun _ => "t") [] 1 [] with
          failed := (runLoop fetchNone "https://demo.substack.com" []
            (fun _ => "t") [] 1 []).failed + 1,
          fetched := (parse_post_metadata postA "https://demo.substack.com").post_slug ::
            (runLoop fetchNone "https://demo.substack.com" []
              (fun _ => "t") [] 1 []).fetched } ∧
    "https://demo.substack.com/p/a" ∉ get_article_urls
      (runLoop fetchNone "https://demo.substack.com" [] (fun _ => "t") [postA] 0 []).store ∧
    (mainRun apiABC fetchNone false 2 "https://demo.substack.com" "t1" "t2"
      (fun _ => "t") stInitial).map (·.exitCode) = some 0 :=
  ⟨C4_content_fetch_failure_isolated.1 fetchNone "https://demo.substack.com" []
      (fun _ => "t") postA [] 0 [] (by simp) rfl,
   C4_content_fetch_failure_isolated.2.1 fetchNone "https://demo.substack.com" []
      (fun _ => "t") [postA] 0 [] "https://demo.substack.com/p/a"
      (by simp [get_article_urls]) (fun p hp _ => rfl),
   C4_content_fetch_failure_isolated.2.2 apiABC fetchNone false 2
      "https://demo.substack.com" "t1" "t2" (fun _ => "t") stInitial [postA, postC] rfl⟩

/-! ## Claim C5 -/

/-- C5 counterexample: a run whose archive fetch succeeds but returns
zero listing entries exits 0 having written nothing at all — the
newsletter row keeps `last_fetched = none` instead of being set to the
end-of-run time `"t2"`, because `main` returns before the finalize
step (and even before the metadata upsert) when the listing is empty. -/
theorem C5_last_fetched_not_updated_on_empty_archive :
    (mainRun apiEmpty fetchHello false 1 "https://demo.substack.com" "t1" "t2"
        (fun _ => "t") stInitial).map
        (fun out => (out.exitCode, out.state.newsletter.map (·.last_fetched))) =
      some (0, some none) := by
  rfl

/-- C5 amended: when the archive fetch succeeds **and the filtered
listing is non-empty**, the run exits 0 and the newsletter row's
`last_fetched` is the end-of-run time, regardless of how many
individual posts failed (the content fetcher is arbitrary). -/
theorem C5_last_fetched_updated_when_archive_nonempty
    (api : Nat → Option (List RawPost)) (fetch : Option String → Option (List Html))
    (full : Bool) (fuel : Nat) (base nowStart nowEnd : String) (now : Nat → String)
    (st : DbState) (posts : List RawPost)
    (harch : fetch_archive api fuel = some (.ok posts)) (hne : posts ≠ []) :
    ∃ out, mainRun api fetch full fuel base nowStart nowEnd now st = some out ∧
      out.exitCode = 0 ∧
      out.state.newsletter =
        some { extract_newsletter_metadata base posts with last_fetched := some nowEnd } := by
  cases posts with
  | nil => exact absurd rfl hne
  | cons p rest =>
    unfold mainRun
    rw [harch]
    exact ⟨_, rfl, rfl, rfl⟩

/-- Witness for C5 amended: a concrete run over the `[A, B, C]` archive
with an all-failing content fetcher still finalizes `last_fetched`. -/
theorem C5_last_fetched_updated_when_archive_nonempty_witness :
    ∃ out, mainRun apiABC fetchNone false 2 "https://demo.substack.com" "t1" "t2"
        (fun _ => "t") stInitial = some out ∧
      out.exitCode = 0 ∧
      out.state.newsletter =
        some { extract_newsletter_metadata "https://demo.substack.com" [postA, postC] with
          last_fetched := some "t2" } :=
  C5_last_fetched_updated_when_archive_nonempty apiABC fetchNone false 2
    "https://demo.substack.com" "t1" "t2" (fun _ => "t") stInitial [postA, postC]
    rfl (by simp)

/-! ## Claim C6 -/

/-- C6: the stored word count of an article with non-empty normalized
text is the token count of that text — independent of the listing's
word-count hint — and the hint (defaulted to 0) is used exactly when
the normalized text is empty; every row the loop adds to the store
satisfies the non-empty-text law. -/
theorem C6_word_count_from_normalized_text :
    (∀ (meta : PostMeta) (doc : List Html) (now : String),
      ((buildArticle meta doc now).content_text ≠ "" →
        (buildArticle meta doc now).word_count =
          countWords (buildArticle meta doc now).content_text) ∧
      ((buildArticle meta doc now).content_text = "" →
        (buildArticle meta doc now).word_count = meta.word_count_from_api.getD 0) ∧
      (∀ hint, (buildArticle meta doc now).content_text ≠ "" →
        (buildArticle { meta with word_count_from_api := hint } doc now).word_count =
          (buildArticle meta doc now).word_count)) ∧
    (∀ (fetch : Option String → Option (List Html)) (base : String)
        (existing : List String) (now : Nat → String) (posts : List RawPost)
        (i : Nat) (store : List ArticleRow) (a : ArticleRow),
      a ∈ (runLoop fetch base existing now posts i store).store →
      a ∈ store ∨ (a.content_text ≠ "" → a.word_count = countWords a.content_text)) := by
  refine ⟨fun meta doc now => ⟨fun hne => ?_, fun he => ?_, fun hint hne => ?_⟩,
    fun fetch base existing now posts i store a h =>
      runLoop_word_count_invariant posts i store a h⟩
  · simp only [buildArticle] at hne ⊢
    rw [if_neg (by simpa using hne)]
  · simp only [buildArticle] at he ⊢
    rw [if_pos (by simpa using he)]
  · simp only [buildArticle] at hne ⊢
    rw [if_neg (by simpa using hne), if_neg (by simpa using hne)]

/-- Witness for C6: a concrete two-word body gives word count 2 from
the text, ignoring a hint of 999; an empty body falls back to the
hint; and a loop-stored row obeys the law. -/
theorem C6_word_count_from_normalized_text_witness :
    ((buildArticle { parse_post_metadata postA "https://demo.substack.com" with
        word_count_from_api := some 999 }
        [Html.tag "p" [Html.text "Hello world"]] "t").content_text ≠ "" →
      (buildArticle { parse_post_metadata postA "https://demo.substack.com" with
        word_count_from_api := some 999 }
        [Html.tag "p" [Html.text "Hello world"]] "t").word_count =
        countWords (buildArticle { parse_post_metadata postA "https://demo.substack.com" with
          word_count_from_api := some 999 }
          [Html.tag "p" [Html.text "Hello world"]] "t").content_text) ∧
    (sampleArticle ∈ (runLoop fetchHello "https://demo.substack.com" []
        (fun _ => "t") [] 0 [sampleArticle]).store ∨
      (sampleArticle.content_text ≠ "" →
        sampleArticle.word_count = countWords sampleArticle.content_text)) :=
  ⟨(C6_word_count_from_normalized_text.1
      { parse_post_metadata postA "https://demo.substack.com" with
        word_count_from_api := some 999 }
      [Html.tag "p" [Html.text "Hello world"]] "t").1,
   C6_word_count_from_normalized_text.2 fetchHello "https://demo.substack.com" []
      (fun _ => "t") [] 0 [sampleArticle] sampleArticle (List.Mem.head [])⟩

/-! ## Claim C9 -/

/-- C9 counterexample: the publication display name never "remains
unset".  With an empty listing nothing supplies a name, yet the
extracted metadata's `name` is set — to the slug `"demo"` derived from
the base URL (the row's `name` column is `NOT NULL` and the code
installs the slug as fallback). -/
theorem C9_display_name_never_unset :
    (extract_newsletter_metadata "https://demo.substack.com" []).name = "demo" ∧
    (extract_newsletter_metadata "https://demo.substack.com" []).name =
      (extract_newsletter_metadata "https://demo.substack.com" []).slug :=
  ⟨rfl, rfl⟩

/-- C9 amended: metadata extraction scans the ordered listing entries:
the author is the `name` of the first byline of the first entry with a
non-empty byline list, the display name is the first truthy publication
name **falling back to the slug (never unset)**, the description is
the first truthy hero text; author and description may remain unset
(e.g. on an empty listing); the slug is derived from the host portion
of the base URL. -/
theorem C9_extract_newsletter_metadata_first_match (base : String) (posts : List RawPost) :
    (extract_newsletter_metadata base posts).author =
      (posts.find? (fun p => !p.publishedBylines.isEmpty)).bind
        (fun p => p.publishedBylines.head?.bind (·.name)) ∧
    (extract_newsletter_metadata base posts).name =
      ((posts.find? (fun p => pyTruthy (p.publication.bind (·.name)))).bind
        (fun p => p.publication.bind (·.name))).getD (slugOf base) ∧
    (extract_newsletter_metadata base posts).description =
      (posts.find? (fun p => pyTruthy (p.publication.bind (·.hero_text)))).bind
        (fun p => p.publication.bind (·.hero_text)) ∧
    (extract_newsletter_metadata base posts).slug = slugOf base ∧
    (extract_newsletter_metadata base posts).url = base ∧
    (extract_newsletter_metadata base []).author = none ∧
    (extract_newsletter_metadata base []).description = none := by
  refine ⟨?_, ?_, ?_, rfl, rfl, rfl, rfl⟩
  · exact firstAuthor_eq_find posts
  · show (firstPubName posts).getD (slugOf base) = _
    rw [firstPubName_eq_find]
  · exact firstHeroText_eq_find posts


/-! ## Claim C3 -/

/-- Unfolding equation of the paging loop at positive fuel. -/
theorem fetchArchiveLoop_succ (api : Nat → Option (List RawPost))
    (fuel off : Nat) (acc : List RawPost) :
    fetchArchiveLoop api (fuel + 1) off acc =
      match api off with
      | none => some (.error ())
      | some ps =>
        if ps = [] then some (.ok acc)
        else fetchArchiveLoop api fuel (off + ps.length) (acc ++ ps) := rfl

/-- A non-empty page continues the loop with the offset advanced by
the page's actual length and the page appended to the accumulator. -/
theorem fetchArchiveLoop_step (api : Nat → Option (List RawPost))
    (fuel off : Nat) (acc ps : List RawPost) (h : api off = some ps) (hne : ps ≠ []) :
    fetchArchiveLoop api (fuel + 1) off acc =
      fetchArchiveLoop api fuel (off + ps.length) (acc ++ ps) := by
  rw [fetchArchiveLoop_succ, h]
  exact if_neg hne

/-- An empty page ends the loop with the accumulated entries. -/
theorem fetchArchiveLoop_empty (api : Nat → Option (List RawPost))
    (fuel off : Nat) (acc : List RawPost) (h : api off = some []) :
    fetchArchiveLoop api (fuel + 1) off acc = some (.ok acc) := by
  rw [fetchArchiveLoop_succ, h]
  rfl

/-- Offsets advance one page at a time. -/
theorem offsetAt_succ (api : Nat → Option (List RawPost)) (k : Nat) :
    offsetAt api (k + 1) = offsetAt api k + (pageAt api k).length := rfl

/-- If the pages at iterations `m, ..., m+d-1` are returned non-empty
and the page at iteration `m+d` is empty, the loop started at
iteration `m` returns the accumulator extended by those pages in
request order, for any fuel above `d`. -/
theorem fetchArchiveLoop_reaches_empty (api : Nat → Option (List RawPost)) :
    ∀ (d m fuel : Nat) (acc : List RawPost),
      (∀ j, m ≤ j → j < m + d →
        api (offsetAt api j) = some (pageAt api j) ∧ pageAt api j ≠ []) →
      api (offsetAt api (m + d)) = some [] →
      d < fuel →
      fetchArchiveLoop api fuel (offsetAt api m) acc =
        some (.ok (acc ++ collectFrom api m d)) := by
  intro d
  induction d with
  | zero =>
    intro m fuel acc _ hempty hf
    rcases Nat.exists_eq_add_of_lt hf with ⟨f, hfe⟩
    subst hfe
    simp only [Nat.add_zero] at hempty
    rw [show 0 + f + 1 = f + 1 from by omega]
    rw [fetchArchiveLoop_empty api f _ acc hempty]
    simp [collectFrom]
  | succ d ih =>
    intro m fuel acc hgood hempty hf
    rcases Nat.exists_eq_add_of_lt hf with ⟨f, hfe⟩
    have hm := hgood m (Nat.le_refl m) (by omega)
    have hfuel : fuel = (d + f + 1) + 1 := by omega
    rw [hfuel, fetchArchiveLoop_step api (d + f + 1) _ acc (pageAt api m) hm.1 hm.2,
      ← offsetAt_succ api m]
    rw [ih (m + 1) (d + f + 1) (acc ++ pageAt api m)
      (fun j hj1 hj2 => hgood j (by omega) (by omega))
      (by rw [show m + 1 + d = m + (d + 1) from by omega]; exact hempty)
      (by omega)]
    simp [collectFrom, List.append_assoc]

/-- If every page comes back non-empty the loop never returns: it
exhausts any fuel. -/
theorem fetchArchiveLoop_diverges (api : Nat → Option (List RawPost))
    (hgood : ∀ j, api (offsetAt api j) = some (pageAt api j) ∧ pageAt api j ≠ []) :
    ∀ (fuel m : Nat) (acc : List RawPost),
      fetchArchiveLoop api fuel (offsetAt api m) acc = none := by
  intro fuel
  induction fuel with
  | zero => intro m acc; rfl
  | succ f ih =>
    intro m acc
    rw [fetchArchiveLoop_step api f _ acc (pageAt api m) (hgood m).1 (hgood m).2,
      ← offsetAt_succ api m]
    exact ih (m + 1) _

/-- C3: archive pagination advances the offset by the number of entries
actually returned, accumulates pages in request order, and terminates
exactly on a zero-entry page: a non-empty page — however small — always
continues the loop, a reachable empty page ends it with the pages
collected so far, and if no page ever comes back empty the loop runs
beyond any fuel bound. -/
theorem C3_pagination_terminates_iff_empty_page :
    (∀ (api : Nat → Option (List RawPost)) (j : Nat),
      offsetAt api 0 = 0 ∧
      offsetAt api (j + 1) = offsetAt api j + (pageAt api j).length) ∧
    (∀ (api : Nat → Option (List RawPost)) (fuel off : Nat) (acc ps : List RawPost),
      api off = some ps → ps ≠ [] →
      fetchArchiveLoop api (fuel + 1) off acc =
        fetchArchiveLoop api fuel (off + ps.length) (acc ++ ps)) ∧
    (∀ (api : Nat → Option (List RawPost)) (fuel off : Nat) (acc : List RawPost),
      api off = some [] →
      fetchArchiveLoop api (fuel + 1) off acc = some (.ok acc)) ∧
    (∀ (api : Nat → Option (List RawPost)) (k fuel : Nat),
      (∀ j < k, api (offsetAt api j) = some (pageAt api j) ∧ pageAt api j ≠ []) →
      api (offsetAt api k) = some [] → k < fuel →
      fetchArchiveLoop api fuel 0 [] = some (.ok (collectFrom api 0 k))) ∧
    (∀ api : Nat → Option (List RawPost),
      (∀ j, api (offsetAt api j) = some (pageAt api j) ∧ pageAt api j ≠ []) →
      ∀ (fuel : Nat) (acc : List RawPost), fetchArchiveLoop api fuel 0 acc = none) := by
  refine ⟨fun api j => ⟨rfl, offsetAt_succ api j⟩, fetchArchiveLoop_step,
    fetchArchiveLoop_empty, fun api k fuel hgood hempty hf => ?_, fun api hgood fuel acc => ?_⟩
  · have := fetchArchiveLoop_reaches_empty api k 0 fuel []
      (fun j _ hj2 => hgood j (by omega)) (by simpa using hempty) hf
    simpa using this
  · exact fetchArchiveLoop_diverges api hgood fuel 0 acc

/-- Witness for C3: on the concrete `[A, B, C]`-then-empty archive the
loop stops after the empty second page with all three entries in
order, and a first-page-empty archive stops at once with nothing. -/
theorem C3_pagination_terminates_iff_empty_page_witness :
    fetchArchiveLoop apiABC 2 0 [] = some (.ok (collectFrom apiABC 0 1)) ∧
    fetchArchiveLoop apiEmpty (0 + 1) 0 [] = some (.ok []) :=
  ⟨C3_pagination_terminates_iff_empty_page.2.2.2.1 apiABC 1 2
      (by decide) (by decide) (by decide),
   C3_pagination_terminates_iff_empty_page.2.2.1 apiEmpty 0 0 [] (by decide)⟩

/-! ## Claim C8 -/

/-- C8: `fetch_archive` keeps exactly the listing entries of type
`"newsletter"`, in collection order (the result is the filter — an
order-preserving sublist — of the concatenated pages), and a run can
only ever persist articles at the URLs of those retained entries. -/
theorem C8_only_newsletter_entries_kept_and_persisted :
    (∀ (api : Nat → Option (List RawPost)) (fuel : Nat) (raw res : List RawPost),
      fetchArchiveLoop api fuel 0 [] = some (.ok raw) →
      fetch_archive api fuel = some (.ok res) →
      res = raw.filter isNewsletter ∧
        (∀ p ∈ res, p.type = some "newsletter") ∧ res.Sublist raw) ∧
    (∀ (api : Nat → Option (List RawPost)) (fetch : Option String → Option (List Html))
        (full : Bool) (fuel : Nat) (base nowS nowE : String) (now : Nat → String)
        (st : DbState) (out : RunOutcome) (posts : List RawPost),
      fetch_archive api fuel = some (.ok posts) →
      mainRun api fetch full fuel base nowS nowE now st = some out →
      ∀ a ∈ out.state.articles, a.url ∈ get_article_urls st.articles ∨
        ∃ p ∈ posts, (parse_post_metadata p base).url = a.url) ∧
    fetch_archive apiABC 2 = some (.ok [postA, postC]) := by
  refine ⟨?_, ?_, rfl⟩
  · intro api fuel raw res hloop harch
    unfold fetch_archive at harch
    rw [hloop] at harch
    have hok : (Except.ok (raw.filter isNewsletter) : Except Unit (List RawPost)) =
        Except.ok res :=
      Option.some.inj harch
    have hres : res = raw.filter isNewsletter := (Except.ok.inj hok).symm
    subst hres
    refine ⟨rfl, fun p hp => ?_, List.filter_sublist raw⟩
    have := (List.mem_filter.mp hp).2
    simpa [isNewsletter] using this
  · intro api fetch full fuel base nowS nowE now st out posts harch hrun a ha
    unfold mainRun at hrun
    rw [harch] at hrun
    cases posts with
    | nil =>
      have hout := Option.some.inj hrun
      subst hout
      exact Or.inl (List.mem_map_of_mem (·.url) ha)
    | cons p rest =>
      have hout := Option.some.inj hrun
      subst hout
      have hu : a.url ∈ get_article_urls (runLoop fetch base
          (if full then [] else get_article_urls st.articles) now
          (p :: rest) 0 st.articles).store :=
        List.mem_map_of_mem (·.url) ha
      rcases runLoop_new_urls_from_fetched (p :: rest) 0 st.articles a.url hu with
        h1 | ⟨q, hq, h2, _⟩
      · exact Or.inl h1
      · exact Or.inr ⟨q, hq, h2⟩

/-- Witness for C8: from the raw listing `[A(newsletter), B(reshare),
C(newsletter)]` exactly `[A, C]` survive, in order. -/
theorem C8_only_newsletter_entries_kept_and_persisted_witness :
    [postA, postC] = [postA, postB, postC].filter isNewsletter ∧
    (∀ p ∈ [postA, postC], p.type = some "newsletter") ∧
    [postA, postC].Sublist [postA, postB, postC] :=
  C8_only_newsletter_entries_kept_and_persisted.1 apiABC 2
    [postA, postB, postC] [postA, postC] rfl rfl


/-! ## Claim C7 — lemmas on the whitespace pipeline -/

theorem noTripleNLAux_mono :
    ∀ (l : List Char) (j j' : Nat), j' ≤ j → noTripleNLAux j l = true →
      noTripleNLAux j' l = true := by
  intro l
  induction l with
  | nil => intro j j' _ _; rfl
  | cons c rest ih =>
    intro j j' hle h
    by_cases hc : c = '\n'
    · simp only [noTripleNLAux, hc, if_pos, Bool.and_eq_true, decide_eq_true_eq] at h ⊢
      exact ⟨by omega, ih (j + 1) (j' + 1) (by omega) h.2⟩
    · simp only [noTripleNLAux, hc, if_neg, if_false] at h ⊢
      exact h

theorem noDoubleHSAux_mono :
    ∀ l : List Char, noDoubleHSAux true l = true → noDoubleHSAux false l = true := by
  intro l h
  cases l with
  | nil => rfl
  | cons c rest =>
    by_cases hc : isHSpace c = true
    · simp [noDoubleHSAux, hc] at h
    · simpa [noDoubleHSAux, hc] using h

theorem noTripleNLAux_take :
    ∀ (l : List Char) (k j : Nat), noTripleNLAux j l = true →
      noTripleNLAux j (List.take k l) = true := by
  intro l
  induction l with
  | nil => intro k j _; simp [noTripleNLAux]
  | cons c rest ih =>
    intro k j h
    cases k with
    | zero => rfl
    | succ k' =>
      rw [List.take_succ_cons]
      by_cases hc : c = '\n'
      · simp only [noTripleNLAux, hc, if_pos, Bool.and_eq_true] at h ⊢
        exact ⟨h.1, ih k' (j + 1) h.2⟩
      · simp only [noTripleNLAux, hc, if_neg, if_false] at h ⊢
        exact ih k' 0 h

theorem noDoubleHSAux_take :
    ∀ (l : List Char) (k : Nat) (p : Bool), noDoubleHSAux p l = true →
      noDoubleHSAux p (List.take k l) = true := by
  intro l
  induction l with
  | nil => intro k p _; simp [noDoubleHSAux]
  | cons c rest ih =>
    intro k p h
    cases k with
    | zero => rfl
    | succ k' =>
      rw [List.take_succ_cons]
      by_cases hc : isHSpace c = true
      · simp only [noDoubleHSAux, hc, if_pos, Bool.and_eq_true] at h ⊢
        exact ⟨h.1, ih k' true h.2⟩
      · simp only [noDoubleHSAux, hc, if_neg, if_false] at h ⊢
        exact ih k' false h

theorem noTripleNL_dropWhile (q : Char → Bool) :
    ∀ l : List Char, noTripleNL l = true → noTripleNL (l.dropWhile q) = true := by
  intro l
  induction l with
  | nil => intro _; rfl
  | cons c rest ih =>
    intro h
    rw [List.dropWhile_cons]
    by_cases hq : q c = true
    · rw [if_pos hq]
      apply ih
      unfold noTripleNL at h ⊢
      by_cases hc : c = '\n'
      · simp only [noTripleNLAux, hc, if_pos, Bool.and_eq_true] at h
        exact noTripleNLAux_mono rest 1 0 (by omega) h.2
      · simpa only [noTripleNLAux, hc, if_neg, if_false] using h
    · rw [if_neg hq]
      exact h

theorem noDoubleHS_dropWhile (q : Char → Bool) :
    ∀ l : List Char, noDoubleHS l = true → noDoubleHS (l.dropWhile q) = true := by
  intro l
  induction l with
  | nil => intro _; rfl
  | cons c rest ih =>
    intro h
    rw [List.dropWhile_cons]
    by_cases hq : q c = true
    · rw [if_pos hq]
      apply ih
      unfold noDoubleHS at h ⊢
      by_cases hc : isHSpace c = true
      · simp only [noDoubleHSAux, hc, if_pos, Bool.and_eq_true] at h
        exact noDoubleHSAux_mono rest h.2
      · simpa only [noDoubleHSAux, hc, if_neg, if_false] using h
    · rw [if_neg hq]
      exact h

theorem dropTrailing_eq_take (p : Char → Bool) :
    ∀ l : List Char, ∃ k, dropTrailing p l = List.take k l := by
  intro l
  induction l with
  | nil => exact ⟨0, rfl⟩
  | cons c rest ih =>
    rcases ih with ⟨k, hk⟩
    by_cases hc : (dropTrailing p rest = [] && p c) = true
    · refine ⟨0, ?_⟩
      rw [dropTrailing_cons, if_pos hc]
      rfl
    · refine ⟨k + 1, ?_⟩
      rw [dropTrailing_cons, if_neg hc, hk]
      rfl

theorem allHSSpace_take (l : List Char) (k : Nat) (h : allHSSpace l = true) :
    allHSSpace (List.take k l) = true := by
  simp only [allHSSpace, List.all_eq_true] at h ⊢
  exact fun c hc => h c (List.take_subset k l hc)

theorem allHSSpace_dropWhile (q : Char → Bool) (l : List Char)
    (h : allHSSpace l = true) : allHSSpace (l.dropWhile q) = true := by
  simp only [allHSSpace, List.all_eq_true] at h ⊢
  exact fun c hc => h c ((List.dropWhile_sublist q).subset hc)

theorem dropWhile_head_not (q : Char → Bool) :
    ∀ (l : List Char) (c : Char), (l.dropWhile q).head? = some c → q c = false := by
  intro l
  induction l with
  | nil => intro c h; cases h
  | cons d rest ih =>
    intro c h
    rw [List.dropWhile_cons] at h
    by_cases hq : q d = true
    · rw [if_pos hq] at h
      exact ih c h
    · rw [if_neg hq] at h
      simp only [List.head?_cons, Option.some.injEq] at h
      subst h
      simpa using hq

theorem dropTrailing_head (p : Char → Bool) (l : List Char)
    (hne : dropTrailing p l ≠ []) : (dropTrailing p l).head? = l.head? := by
  cases l with
  | nil => cases hne rfl
  | cons c rest =>
    rw [dropTrailing_cons]
    by_cases hc : (dropTrailing p rest = [] && p c) = true
    · rw [dropTrailing_cons, if_pos hc] at hne
      cases hne rfl
    · rw [if_neg hc]
      rfl

theorem noDoubleHSAux_replicate_nl :
    ∀ (m : Nat) (p : Bool) (l : List Char),
      noDoubleHSAux p (List.replicate m '\n' ++ l) =
        noDoubleHSAux (if m = 0 then p else false) l := by
  intro m
  induction m with
  | zero => intro p l; rfl
  | succ m' ih =>
    intro p l
    rw [List.replicate_succ, List.cons_append]
    show noDoubleHSAux false (List.replicate m' '\n' ++ l) = _
    rw [ih false l]
    by_cases hm : m' = 0 <;> simp [hm]

theorem noTripleNLAux_chunk :
    ∀ m : Nat, m ≤ 2 → noTripleNLAux 0 (List.replicate m '\n') = true := by
  intro m hm
  match m with
  | 0 => rfl
  | 1 => rfl
  | 2 => rfl

theorem noTripleNLAux_chunk_cons :
    ∀ m : Nat, m ≤ 2 → ∀ c : Char, c ≠ '\n' → ∀ t : List Char,
      noTripleNLAux 0 (List.replicate m '\n' ++ c :: t) = noTripleNLAux 0 t := by
  intro m hm c hc t
  match m with
  | 0 =>
    show noTripleNLAux 0 (c :: t) = _
    simp [noTripleNLAux, hc]
  | 1 =>
    show noTripleNLAux 0 ('\n' :: c :: t) = _
    simp [noTripleNLAux, hc]
  | 2 =>
    show noTripleNLAux 0 ('\n' :: '\n' :: c :: t) = _
    simp [noTripleNLAux, hc]

theorem allHSSpace_replicate_nl (m : Nat) :
    allHSSpace (List.replicate m '\n') = true := by
  simp only [allHSSpace, List.all_eq_true]
  intro c hc
  rw [List.eq_of_mem_replicate hc]
  rfl

theorem collapseHSAux_ndh :
    ∀ l : List Char,
      noDoubleHSAux false (collapseHSAux l false) = true ∧
      noDoubleHSAux true (collapseHSAux l true) = true ∧
      noDoubleHSAux false (collapseHSAux l true) = true := by
  intro l
  induction l with
  | nil => exact ⟨rfl, rfl, rfl⟩
  | cons c rest ih =>
    by_cases hc : isHSpace c = true
    · have e1 : collapseHSAux (c :: rest) false = ' ' :: collapseHSAux rest true := by
        simp [collapseHSAux, hc]
      have e2 : collapseHSAux (c :: rest) true = collapseHSAux rest true := by
        simp [collapseHSAux, hc]
      refine ⟨?_, ?_, ?_⟩
      · rw [e1]
        simpa [noDoubleHSAux] using ih.2.1
      · rw [e2]
        exact ih.2.1
      · rw [e2]
        exact ih.2.2
    · have h1 : collapseHSAux (c :: rest) false = c :: collapseHSAux rest false := by
        simp [collapseHSAux, hc]
      have h2 : collapseHSAux (c :: rest) true = c :: collapseHSAux rest false := by
        simp [collapseHSAux, hc]
      refine ⟨?_, ?_, ?_⟩
      · rw [h1]; simpa [noDoubleHSAux, hc] using ih.1
      · rw [h2]; simpa [noDoubleHSAux, hc] using ih.1
      · rw [h2]; simpa [noDoubleHSAux, hc] using ih.1

theorem collapseHSAux_allHS :
    ∀ (l : List Char) (b : Bool), allHSSpace (collapseHSAux l b) = true := by
  intro l
  induction l with
  | nil => intro b; rfl
  | cons c rest ih =>
    intro b
    by_cases hc : isHSpace c = true
    · cases b with
      | true =>
        rw [show collapseHSAux (c :: rest) true = collapseHSAux rest true from
          by simp [collapseHSAux, hc]]
        exact ih true
      | false =>
        rw [show collapseHSAux (c :: rest) false = ' ' :: collapseHSAux rest true from
          by simp [collapseHSAux, hc]]
        simpa [allHSSpace] using ih true
    · have h1 : collapseHSAux (c :: rest) b = c :: collapseHSAux rest false := by
        cases b <;> simp [collapseHSAux, hc]
      rw [h1]
      simpa [allHSSpace, hc] using ih false

theorem collapseNLAux_ntn :
    ∀ (l : List Char) (n : Nat), noTripleNLAux 0 (collapseNLAux l n) = true := by
  intro l
  induction l with
  | nil =>
    intro n
    exact noTripleNLAux_chunk (min n 2) (Nat.min_le_right n 2)
  | cons c rest ih =>
    intro n
    by_cases hc : c = '\n'
    · show noTripleNLAux 0 (collapseNLAux (c :: rest) n) = true
      rw [show collapseNLAux (c :: rest) n = collapseNLAux rest (n + 1) from
        by simp [collapseNLAux, hc]]
      exact ih (n + 1)
    · rw [show collapseNLAux (c :: rest) n = nlChunk n ++ c :: collapseNLAux rest 0 from
        by simp [collapseNLAux, hc]]
      rw [show nlChunk n = List.replicate (min n 2) '\n' from rfl]
      rw [noTripleNLAux_chunk_cons (min n 2) (Nat.min_le_right n 2) c hc]
      exact ih 0

theorem collapseNLAux_ndh :
    ∀ l : List Char,
      (∀ n, noDoubleHSAux false l = true →
        noDoubleHSAux false (collapseNLAux l n) = true) ∧
      (∀ n, 1 ≤ n → noDoubleHSAux false l = true →
        noDoubleHSAux true (collapseNLAux l n) = true) ∧
      (noDoubleHSAux true l = true → noDoubleHSAux true (collapseNLAux l 0) = true) := by
  intro l
  induction l with
  | nil =>
    refine ⟨fun n _ => ?_, fun n _ _ => ?_, fun _ => rfl⟩
    · show noDoubleHSAux false (List.replicate (min n 2) '\n') = true
      have h0 := noDoubleHSAux_replicate_nl (min n 2) false []
      rw [List.append_nil] at h0
      rw [h0]
      cases (min n 2) <;> rfl
    · show noDoubleHSAux true (List.replicate (min n 2) '\n') = true
      have h0 := noDoubleHSAux_replicate_nl (min n 2) true []
      rw [List.append_nil] at h0
      rw [h0]
      cases (min n 2) <;> rfl
  | cons c rest ih =>
    by_cases hc : c = '\n'
    · have hrw : ∀ n, collapseNLAux (c :: rest) n = collapseNLAux rest (n + 1) := by
        intro n; simp [collapseNLAux, hc]
      have hin : ∀ p, noDoubleHSAux p (c :: rest) = noDoubleHSAux false rest := by
        intro p; subst hc; cases p <;> rfl
      refine ⟨fun n h => ?_, fun n _ h => ?_, fun h => ?_⟩
      · rw [hrw n]
        rw [hin false] at h
        exact (ih.1) (n + 1) h
      · rw [hrw n]
        rw [hin false] at h
        exact (ih.2.1) (n + 1) (by omega) h
      · rw [hrw 0]
        rw [hin true] at h
        exact (ih.2.1) 1 (by omega) h
    · have hrw : ∀ n, collapseNLAux (c :: rest) n =
          List.replicate (min n 2) '\n' ++ c :: collapseNLAux rest 0 := by
        intro n; simp [collapseNLAux, hc, nlChunk]
      by_cases hh : isHSpace c = true
      · have hgoal : ∀ t : List Char, noDoubleHSAux false (c :: t) =
            noDoubleHSAux true t := by
          intro t; simp [noDoubleHSAux, hh]
        refine ⟨fun n h => ?_, fun n hn h => ?_, fun h => ?_⟩
        · rw [hrw n, noDoubleHSAux_replicate_nl]
          have h' : noDoubleHSAux true rest = true := by
            simpa [noDoubleHSAux, hh] using h
          by_cases hm : min n 2 = 0 <;>
            simp only [hm, if_pos, if_neg, if_true, if_false, reduceIte] <;>
            · rw [hgoal]
              exact ih.2.2 h'
        · have hm : ¬ (min n 2 = 0) := by omega
          rw [hrw n, noDoubleHSAux_replicate_nl]
          have h' : noDoubleHSAux true rest = true := by
            simpa [noDoubleHSAux, hh] using h
          simp only [hm, if_neg, reduceIte]
          rw [hgoal]
          exact ih.2.2 h'
        · simp [noDoubleHSAux, hh] at h
      · have hgoal : ∀ (t : List Char) (p : Bool), noDoubleHSAux p (c :: t) =
            noDoubleHSAux false t := by
          intro t p; simp [noDoubleHSAux, hh]
        have h' : ∀ p, noDoubleHSAux p (c :: rest) = noDoubleHSAux false rest := by
          intro p; simp [noDoubleHSAux, hh]
        refine ⟨fun n h => ?_, fun n hn h => ?_, fun h => ?_⟩
        · rw [hrw n, noDoubleHSAux_replicate_nl, h' false] at *
          by_cases hm : min n 2 = 0 <;> simp only [hm, reduceIte] <;>
            · rw [hgoal]
              exact ih.1 0 h
        · rw [hrw n, noDoubleHSAux_replicate_nl, h' false] at *
          by_cases hm : min n 2 = 0 <;> simp only [hm, reduceIte] <;>
            · rw [hgoal]
              exact ih.1 0 h
        · rw [hrw 0, h' true] at *
          show noDoubleHSAux true (List.replicate 0 '\n' ++ c :: collapseNLAux rest 0) = true
          rw [noDoubleHSAux_replicate_nl, if_pos rfl, hgoal]
          exact ih.1 0 h

theorem collapseNLAux_allHS :
    ∀ (l : List Char) (n : Nat), allHSSpace l = true →
      allHSSpace (collapseNLAux l n) = true := by
  intro l
  induction l with
  | nil =>
    intro n _
    show allHSSpace (nlChunk n) = true
    exact allHSSpace_replicate_nl (min n 2)
  | cons c rest ih =>
    intro n h
    have hc' : (!isHSpace c || c = ' ') = true := by
      simpa [allHSSpace] using (List.all_eq_true.mp h c (List.mem_cons_self c rest))
    have hrest : allHSSpace rest = true := by
      simp only [allHSSpace, List.all_eq_true] at h ⊢
      exact fun x hx => h x (List.mem_cons_of_mem c hx)
    by_cases hc : c = '\n'
    · rw [show collapseNLAux (c :: rest) n = collapseNLAux rest (n + 1) from
        by simp [collapseNLAux, hc]]
      exact ih (n + 1) hrest
    · rw [show collapseNLAux (c :: rest) n = nlChunk n ++ c :: collapseNLAux rest 0 from
        by simp [collapseNLAux, hc]]
      have hchunk : allHSSpace (nlChunk n) = true := allHSSpace_replicate_nl (min n 2)
      have hrec := ih 0 hrest
      simp only [allHSSpace, List.all_append, List.all_cons, Bool.and_eq_true] at hchunk hrec ⊢
      exact ⟨hchunk, hc', hrec⟩

theorem pyStrip_noTripleNL (l : List Char) (h : noTripleNL l = true) :
    noTripleNL (pyStrip l) = true := by
  unfold pyStrip
  rcases dropTrailing_eq_take pyIsSpace (l.dropWhile pyIsSpace) with ⟨k, hk⟩
  rw [hk]
  exact noTripleNLAux_take _ k 0 (noTripleNL_dropWhile pyIsSpace l h)

theorem pyStrip_noDoubleHS (l : List Char) (h : noDoubleHS l = true) :
    noDoubleHS (pyStrip l) = true := by
  unfold pyStrip
  rcases dropTrailing_eq_take pyIsSpace (l.dropWhile pyIsSpace) with ⟨k, hk⟩
  rw [hk]
  exact noDoubleHSAux_take _ k false (noDoubleHS_dropWhile pyIsSpace l h)

theorem pyStrip_allHSSpace (l : List Char) (h : allHSSpace l = true) :
    allHSSpace (pyStrip l) = true := by
  unfold pyStrip
  rcases dropTrailing_eq_take pyIsSpace (l.dropWhile pyIsSpace) with ⟨k, hk⟩
  rw [hk]
  exact allHSSpace_take _ k (allHSSpace_dropWhile pyIsSpace l h)

theorem pyStrip_trimmedEnds (l : List Char) : trimmedEnds (pyStrip l) = true := by
  unfold trimmedEnds
  apply Bool.and_eq_true_iff.mpr
  constructor
  · cases hh : (pyStrip l).head? with
    | none => rfl
    | some c =>
      have hne : pyStrip l ≠ [] := by
        intro he
        rw [he] at hh
        cases hh
      have h1 : (pyStrip l).head? = (l.dropWhile pyIsSpace).head? :=
        dropTrailing_head pyIsSpace _ hne
      rw [h1] at hh
      have := dropWhile_head_not pyIsSpace l c hh
      simp [this]
  · cases hh : (pyStrip l).getLast? with
    | none => rfl
    | some c =>
      have := @dropTrailing_getLast pyIsSpace _ _ hh
      simp [this]

/-- The whole whitespace-normalization pipeline leaves no triple
newline, no doubled or non-space horizontal whitespace, and trims the
ends, on every input. -/
theorem normalizeWS_invariants (s : String) :
    noTripleNL (normalizeWS s).data = true ∧
    noDoubleHS (normalizeWS s).data = true ∧
    allHSSpace (normalizeWS s).data = true ∧
    trimmedEnds (normalizeWS s).data = true := by
  show noTripleNL (pyStrip (collapseNL (collapseHS s.data))) = true ∧
    noDoubleHS (pyStrip (collapseNL (collapseHS s.data))) = true ∧
    allHSSpace (pyStrip (collapseNL (collapseHS s.data))) = true ∧
    trimmedEnds (pyStrip (collapseNL (collapseHS s.data))) = true
  refine ⟨pyStrip_noTripleNL _ ?_, pyStrip_noDoubleHS _ ?_, pyStrip_allHSSpace _ ?_,
    pyStrip_trimmedEnds _⟩
  · exact collapseNLAux_ntn (collapseHS s.data) 0
  · exact (collapseNLAux_ndh (collapseHS s.data)).1 0 (collapseHSAux_ndh s.data).1
  · exact collapseNLAux_allHS (collapseHS s.data) 0 (collapseHSAux_allHS s.data false)

/-! ## Claim C7 -/

/-- C7: the normalizer maps absent and empty markup to the empty
string; on every parsed document the output has no run of three or
more newlines, no run of two or more horizontal-whitespace characters,
every horizontal whitespace is a plain space, and the ends are
trimmed; four line breaks between two paragraphs collapse to exactly
one blank line, a run of horizontal whitespace collapses to one space,
and a run of five newlines collapses to exactly two. -/
theorem C7_html_to_text_collapses_whitespace :
    html_to_text none = "" ∧
    html_to_text (some []) = "" ∧
    (∀ doc : List Html,
      noTripleNL (html_to_text (some doc)).data = true ∧
      noDoubleHS (html_to_text (some doc)).data = true ∧
      allHSSpace (html_to_text (some doc)).data = true ∧
      trimmedEnds (html_to_text (some doc)).data = true) ∧
    html_to_text (some para4Doc) = "A\n\nB" ∧
    normalizeWS "a \t\t b" = "a b" ∧
    normalizeWS "lines\n\n\n\n\nnext" = "lines\n\nnext" :=
  ⟨rfl, rfl, fun doc => normalizeWS_invariants (nodesText doc), by decide, by decide, by decide⟩


end NewsletterArchive
